import Mathlib

set_option maxRecDepth 4000

/-!
Verification development for the text-transform core of the mediasorter tool:
the path sanitizer (cleanPathSegment / cleanPath) and the bracket content
filter (NewBracketReplacer / Replace), shallowly embedded from the Go source.

The path sanitizer operates on Go strings, which are byte sequences; every
character class used by its regular expressions is a set of ASCII bytes, and
in valid UTF-8 no byte of a multi-byte code point lies below 0x80, so the
per-byte embedding below (strings as lists of natural numbers, one per byte)
is faithful, including the byte-indexed truncation step.

The bracket filter ranges over runes (Unicode code points); it is embedded
over lists of Lean characters.
-/

namespace Mediasorter

/-! ## Path sanitizer: byte-level embedding of part_004 -/

/-- Byte class of forbiddenCharPattern: the characters
less-than, greater-than, colon, double quote, single quote, slash, backslash,
pipe, question mark, asterisk, and the ASCII control codes 0x00 to 0x1F. -/
def isForbidden (b : Nat) : Bool :=
  b < 32 || b == 60 || b == 62 || b == 58 || b == 34 || b == 39 || b == 47 ||
    b == 92 || b == 124 || b == 63 || b == 42

/-- Byte class of bracketPattern: the six ASCII brackets. -/
def isBracketByte (b : Nat) : Bool :=
  b == 91 || b == 93 || b == 40 || b == 41 || b == 123 || b == 125

/-- Byte class of spacePattern: underscore, tab, carriage return, line feed. -/
def isSpaceUnd (b : Nat) : Bool :=
  b == 95 || b == 9 || b == 13 || b == 10

/-- Byte class of the Go regexp whitespace escape: tab, line feed, form feed,
carriage return, space. -/
def isWs (b : Nat) : Bool :=
  b == 9 || b == 10 || b == 12 || b == 13 || b == 32

/-- Byte class of the leading-trim alternative of trimPathPattern:
dot and space. -/
def isDotSpace (b : Nat) : Bool :=
  b == 46 || b == 32

/-- Byte class of the trailing-trim alternative of trimPathPattern:
dash, dot and space. -/
def isTrailTrim (b : Nat) : Bool :=
  b == 45 || b == 46 || b == 32

/-- forbiddenCharPattern.ReplaceAllString(s, underscore): each forbidden byte
becomes an underscore (byte 95). -/
def replaceForbidden (s : List Nat) : List Nat :=
  s.map (fun b => if isForbidden b then 95 else b)

/-- bracketPattern.ReplaceAllString(s, space dash space): each of the six
bracket bytes becomes the three bytes 32, 45, 32. -/
def replaceBrackets (s : List Nat) : List Nat :=
  s.flatMap (fun b => if isBracketByte b then [32, 45, 32] else [b])

/-- strings.ReplaceAll removing backticks (byte 96). -/
def removeBackticks (s : List Nat) : List Nat :=
  s.filter (fun b => b != 96)

/-- strings.ReplaceAll replacing each ampersand (byte 38) by the bytes of
the word and. -/
def replaceAmp (s : List Nat) : List Nat :=
  s.flatMap (fun b => if b == 38 then [97, 110, 100] else [b])

/-- strings.ReplaceAll replacing each hash (byte 35) by the bytes of No. -/
def replaceHash (s : List Nat) : List Nat :=
  s.flatMap (fun b => if b == 35 then [78, 111] else [b])

/-- Worker for run collapsing: ReplaceAllString of a one-or-more character
class repetition with a single space replaces every maximal run of class
bytes by one space (byte 32). The flag records whether the previous byte
belonged to the class (i.e. whether we are inside a run already emitted). -/
def collapseGo (p : Nat → Bool) : Bool → List Nat → List Nat
  | _, [] => []
  | prev, b :: rest =>
    if p b then
      if prev then collapseGo p true rest else 32 :: collapseGo p true rest
    else b :: collapseGo p false rest

/-- Collapse every maximal run of bytes of class p into a single space. -/
def collapseRuns (p : Nat → Bool) (s : List Nat) : List Nat :=
  collapseGo p false s

/-- trimPathPattern.ReplaceAllString(s, empty): strip the leading run of dot
and space bytes and the trailing run of dash, dot and space bytes. -/
def trimSeg (s : List Nat) : List Nat :=
  (((s.dropWhile isDotSpace).reverse.dropWhile isTrailTrim)).reverse

/-- The cleanPathSegment pipeline of part_004 before the final truncation:
forbidden bytes to underscore, brackets to space-dash-space, backticks
removed, ampersand to and, hash to No, underscore and control-whitespace
runs to one space, whitespace runs to one space, then trim. -/
def preClean (s : List Nat) : List Nat :=
  trimSeg (collapseRuns isWs (collapseRuns isSpaceUnd
    (replaceHash (replaceAmp (removeBackticks
      (replaceBrackets (replaceForbidden s)))))))

/-- cleanPathSegment of part_004: the pipeline above followed by truncation
to at most 255 bytes. -/
def cleanPathSegment (s : List Nat) : List Nat :=
  (preClean s).take 255

/-- strings.Split(s, slash): split a byte string on the slash byte 47. -/
def splitOnSlash : List Nat → List (List Nat)
  | [] => [[]]
  | b :: rest =>
    match splitOnSlash rest with
    | [] => [[]]
    | g :: gs => if b == 47 then [] :: g :: gs else (b :: g) :: gs

/-- strings.Join(l, slash): interleave the slash byte 47 between elements. -/
def joinSlash : List (List Nat) → List Nat
  | [] => []
  | [x] => x
  | x :: xs => x ++ 47 :: joinSlash xs

/-- strings.Trim(s, slash): remove all leading and trailing slash bytes. -/
def trimSlashes (s : List Nat) : List Nat :=
  ((s.dropWhile (fun b => b == 47)).reverse.dropWhile (fun b => b == 47)).reverse

/-- cleanPath of part_004. The Go code allocates
make([]string, len(segments)) and then appends the cleaned non-empty
segments, so the joined slice starts with one empty string per original
segment; the final strings.Trim removes the resulting leading slashes. -/
def cleanPath (s : List Nat) : List Nat :=
  let segments := splitOnSlash s
  let newSegments :=
    List.replicate segments.length [] ++
      (segments.map cleanPathSegment).filter (fun seg => !seg.isEmpty)
  trimSlashes (joinSlash newSegments)

/-- Helper to write ASCII byte strings: for ASCII text the UTF-8 bytes of a
Go string are exactly the code points of its characters. -/
def bytes (s : String) : List Nat := s.toList.map Char.toNat

/-! ## Bracket content filter: rune-level embedding of bracketreplacer.go -/

/-- The fixed allBracketPairs map from opening to closing bracket runes. -/
def allBracketPairs (c : Char) : Option Char :=
  if c = '(' then some ')'
  else if c = '[' then some ']'
  else if c = '{' then some '}'
  else if c = '<' then some '>'
  else none

/-- isKnownOpenBracket: membership in the domain of allBracketPairs. -/
def isKnownOpenBracket (c : Char) : Bool := (allBracketPairs c).isSome

/-- isKnownCloseBracket: membership in the range of allBracketPairs. -/
def isKnownCloseBracket (c : Char) : Bool :=
  c == ')' || c == ']' || c == '}' || c == '>'

/-- unicode.IsSpace restricted to the ASCII whitespace runes; the only
place it is used below is strings.TrimSpace on pattern pieces. -/
def goSpace (c : Char) : Bool :=
  c == ' ' || c == '\t' || c == '\n' || c == '\r' || c.toNat == 11 || c.toNat == 12

/-- strings.TrimSpace on a rune list. -/
def trimSpaceGo (s : List Char) : List Char :=
  ((s.dropWhile goSpace).reverse.dropWhile goSpace).reverse

/-- strings.Split(s, comma) on a rune list. -/
def splitOnComma : List Char → List (List Char)
  | [] => [[]]
  | c :: rest =>
    match splitOnComma rest with
    | [] => [[]]
    | g :: gs => if c == ',' then [] :: g :: gs else (c :: g) :: gs

/-- The first pass of parseConfig: scan the configuration, with an
inside-a-bracket-region flag; opening brackets set the flag, closing
brackets clear it, and any other rune seen while the flag is set is
appended to the accumulated pattern source. -/
def extractPatternChars : Bool → List Char → List Char
  | _, [] => []
  | inPattern, c :: rest =>
    if isKnownOpenBracket c then extractPatternChars true rest
    else if isKnownCloseBracket c then extractPatternChars false rest
    else if inPattern then c :: extractPatternChars inPattern rest
    else extractPatternChars inPattern rest

/-- The pattern list of parseConfig: trim the accumulated source, split on
commas, trim each piece, drop empty pieces; if nothing remains the single
wildcard pattern is used. -/
def patsOf (cfg : List Char) : List (List Char) :=
  let patternStr := trimSpaceGo (extractPatternChars false cfg)
  let ps :=
    if patternStr.isEmpty then []
    else ((splitOnComma patternStr).map trimSpaceGo).filter (fun p => !p.isEmpty)
  if ps.isEmpty then [['*']] else ps

/-- A token of the compiled content regex. convertPatternToRegex turns a
star into the dot-star fragment (any run of non-newline runes) and every
other rune into a fragment matching that rune literally: letters, digits
and whitespace are emitted as themselves and every remaining rune is
escaped by regexp.QuoteMeta, so in both cases the fragment matches exactly
that rune. -/
inductive Tok where
  | star : Tok
  | lit : Char → Tok
deriving DecidableEq

/-- Token list of the regex fragment built by convertPatternToRegex. -/
def compilePat (p : List Char) : List Tok :=
  p.map (fun c => if c = '*' then Tok.star else Tok.lit c)

/-- Case folding used by the case-insensitive flag of the compiled regex,
modelled on ASCII (upper-case letters fold onto lower-case ones). -/
def foldChar (c : Char) : Nat :=
  if 65 ≤ c.toNat && c.toNat ≤ 90 then c.toNat + 32 else c.toNat

/-- Case-insensitive rune comparison of a pattern literal with a text rune. -/
def charMatches (p c : Char) : Bool := foldChar p == foldChar c

/-- Fuel-indexed full-match relation of a token list against a whole rune
list: a star token matches any run of non-newline runes (the Go dot does
not match a line feed by default), a literal token matches one rune up to
case folding. The fuel only needs to exceed the sum of both lengths. -/
def matchFullF : Nat → List Tok → List Char → Bool
  | 0, _, _ => false
  | _ + 1, [], s => s.isEmpty
  | f + 1, Tok.star :: ps, s =>
    matchFullF f ps s ||
      (match s with
       | [] => false
       | x :: xs => (x != '\n') && matchFullF f (Tok.star :: ps) xs)
  | _ + 1, Tok.lit _ :: _, [] => false
  | f + 1, Tok.lit c :: ps, x :: xs => charMatches c x && matchFullF f ps xs

/-- Full match of a token list against a whole rune list. -/
def matchFull (pat : List Tok) (s : List Char) : Bool :=
  matchFullF (pat.length + s.length + 1) pat s

/-- Match of a token list against some prefix of a rune list. -/
def prefixMatch (pat : List Tok) (s : List Char) : Bool :=
  (List.range (s.length + 1)).any (fun n => matchFull pat (s.take n))

/-- Match of a token list against some contiguous substring of a rune
list: this is the semantics of the MatchString call on the compiled,
unanchored regex. -/
def subMatch (pat : List Tok) : List Char → Bool
  | [] => prefixMatch pat []
  | x :: xs => prefixMatch pat (x :: xs) || subMatch pat xs

/-- contentRegex.MatchString: the compiled regex is the case-insensitive,
unanchored disjunction of all pattern fragments, so it accepts a content
string exactly when some pattern matches some substring of it. -/
def matcherAccepts (pats : List (List Char)) (content : List Char) : Bool :=
  pats.any (fun p => subMatch (compilePat p) content)

/-- The BracketReplacer state: the set of active opening brackets (kept as
the sub-list of configuration runes that are opening brackets) and the
parsed pattern list feeding the compiled content regex. -/
structure BracketReplacer where
  active : List Char
  pats : List (List Char)

/-- NewBracketReplacer: parse the configuration string. -/
def NewBracketReplacer (cfg : List Char) : BracketReplacer :=
  { active := cfg.filter isKnownOpenBracket, pats := patsOf cfg }

/-- isActiveOpenBracket combined with the activeBrackets lookup: the
closing bracket of an active opening bracket, none for any other rune. -/
def actOf (br : BracketReplacer) (c : Char) : Option Char :=
  if br.active.contains c then allBracketPairs c else none

/-- The closing-bracket scan of Replace: starting behind an opening
bracket with the given depth, advance one rune at a time, incrementing the
depth on the same opening rune and decrementing it on the matching closing
rune (all other runes, including other bracket types, leave the depth
unchanged); when the depth reaches zero return the interior runes passed
over and the remainder behind the closing bracket, and return none if the
input ends first. -/
def findClose (o c : Char) (d : Nat) : List Char → Option (List Char × List Char)
  | [] => none
  | x :: xs =>
    let d' := if x = o then d + 1 else if x = c then d - 1 else d
    if d' = 0 then some ([], xs)
    else
      match findClose o c d' xs with
      | none => none
      | some (ct, rest) => some (x :: ct, rest)

/-- Fuel-indexed main loop of Replace: copy runes until an active opening
bracket; then scan for its balancing close. If none exists, emit the
remainder verbatim and stop. Otherwise test the interior against the
content matcher: on acceptance emit the replacement, else emit the whole
span verbatim; either way continue behind the span. The fuel only needs
to exceed the input length. -/
def replaceGoF (act : Char → Option Char) (m : List Char → Bool) (repl : List Char) :
    Nat → List Char → List Char
  | 0, s => s
  | _ + 1, [] => []
  | f + 1, x :: xs =>
    match act x with
    | none => x :: replaceGoF act m repl f xs
    | some cb =>
      match findClose x cb 1 xs with
      | none => x :: xs
      | some (content, rest) =>
        (if m content then repl else x :: (content ++ [cb])) ++
          replaceGoF act m repl f rest

/-- Replace(text, replacement) of bracketreplacer.go. -/
def Replace (br : BracketReplacer) (text repl : List Char) : List Char :=
  replaceGoF (actOf br) (matcherAccepts br.pats) repl (text.length + 1) text

/-- ReplaceInBrackets template helper. -/
def ReplaceInBrackets (cfg repl text : List Char) : List Char :=
  Replace (NewBracketReplacer cfg) text repl

/-- RemoveBrackets template helper. -/
def RemoveBrackets (cfg text : List Char) : List Char :=
  Replace (NewBracketReplacer cfg) text []

/-! ## Invariants of the cleaned segments -/

/-- Bytes that every stage of the pipeline leaves alone: not forbidden, not
a bracket, not a backtick, ampersand, hash or underscore. A byte string of
such bytes is fixed by every character-substitution stage. -/
def segByteOk (b : Nat) : Bool :=
  !isForbidden b && !isBracketByte b && b != 96 && b != 38 && b != 35 && b != 95

/-- No two adjacent space bytes: the whitespace-collapsing stage is the
identity exactly on strings with this shape (given no other whitespace). -/
def noTwoSpaces : List Nat → Bool
  | [] => true
  | [_] => true
  | a :: b :: rest => !(a == 32 && b == 32) && noTwoSpaces (b :: rest)

/-- The first byte, if any, is outside the class p. -/
def headNot (p : Nat → Bool) : List Nat → Bool
  | [] => true
  | b :: _ => !p b

/-- No slash byte anywhere. -/
def slashFree (s : List Nat) : Bool := s.all (fun b => b != 47)

/-- The full fixed-point characterization of the pipeline before
truncation: benign bytes only, no space runs, no trimmable lead or tail. -/
def segFixed (s : List Nat) : Bool :=
  s.all segByteOk && noTwoSpaces s && headNot isDotSpace s &&
    headNot isTrailTrim s.reverse

/-! ## Membership chains: every byte of a cleaned segment is benign -/

theorem mem_replaceForbidden {b : Nat} {s : List Nat} (h : b ∈ replaceForbidden s) :
    b = 95 ∨ (b ∈ s ∧ isForbidden b = false) := by
  rcases List.mem_map.1 h with ⟨a, ha, rfl⟩
  by_cases hf : isForbidden a
  · simp [hf]
  · right
    simpa [hf] using ha

theorem mem_replaceBrackets {b : Nat} {s : List Nat} (h : b ∈ replaceBrackets s) :
    b = 32 ∨ b = 45 ∨ (b ∈ s ∧ isBracketByte b = false) := by
  rcases List.mem_flatMap.1 h with ⟨a, ha, hb⟩
  by_cases hf : isBracketByte a
  · simp [hf] at hb
    rcases hb with h1 | h1 | h1 <;> simp [h1]
  · simp [hf] at hb
    subst hb
    simp [ha, hf]

theorem mem_removeBackticks {b : Nat} {s : List Nat} (h : b ∈ removeBackticks s) :
    b ∈ s ∧ (b == 96) = false := by
  have := List.mem_filter.1 h
  simpa using this

theorem mem_replaceAmp {b : Nat} {s : List Nat} (h : b ∈ replaceAmp s) :
    b = 97 ∨ b = 110 ∨ b = 100 ∨ (b ∈ s ∧ (b == 38) = false) := by
  rcases List.mem_flatMap.1 h with ⟨a, ha, hb⟩
  by_cases hf : a == 38
  · simp [hf] at hb
    rcases hb with h1 | h1 | h1 <;> simp [h1]
  · simp [hf] at hb
    subst hb
    simp [ha, hf]

theorem mem_replaceHash {b : Nat} {s : List Nat} (h : b ∈ replaceHash s) :
    b = 78 ∨ b = 111 ∨ (b ∈ s ∧ (b == 35) = false) := by
  rcases List.mem_flatMap.1 h with ⟨a, ha, hb⟩
  by_cases hf : a == 35
  · simp [hf] at hb
    rcases hb with h1 | h1 <;> simp [h1]
  · simp [hf] at hb
    subst hb
    simp [ha, hf]

theorem mem_collapseGo {p : Nat → Bool} {b : Nat} :
    ∀ {prev : Bool} {s : List Nat}, b ∈ collapseGo p prev s →
      b = 32 ∨ (b ∈ s ∧ p b = false)
  | _, [], h => by simp [collapseGo] at h
  | prev, a :: rest, h => by
    by_cases hp : p a
    · simp [collapseGo, hp] at h
      by_cases hprev : prev
      · subst hprev
        simp at h
        rcases mem_collapseGo h with h1 | ⟨h1, h2⟩
        · exact Or.inl h1
        · exact Or.inr ⟨List.mem_cons_of_mem _ h1, h2⟩
      · simp [Bool.not_eq_true] at hprev
        subst hprev
        simp at h
        rcases h with rfl | h
        · exact Or.inl rfl
        · rcases mem_collapseGo h with h1 | ⟨h1, h2⟩
          · exact Or.inl h1
          · exact Or.inr ⟨List.mem_cons_of_mem _ h1, h2⟩
    · simp [collapseGo, hp] at h
      rcases h with rfl | h
      · exact Or.inr ⟨List.mem_cons_self _ _, by simpa using hp⟩
      · rcases mem_collapseGo h with h1 | ⟨h1, h2⟩
        · exact Or.inl h1
        · exact Or.inr ⟨List.mem_cons_of_mem _ h1, h2⟩

theorem mem_trimSeg {b : Nat} {s : List Nat} (h : b ∈ trimSeg s) : b ∈ s := by
  unfold trimSeg at h
  have h1 := List.mem_reverse.1 h
  have h2 := List.dropWhile_subset _ h1
  have h3 := List.mem_reverse.1 h2
  exact List.dropWhile_subset _ h3

/-- Every byte of a cleaned (untruncated) segment is benign. -/
theorem mem_preClean_segByteOk {b : Nat} {s : List Nat} (h : b ∈ preClean s) :
    segByteOk b = true := by
  unfold preClean at h
  have h1 := mem_trimSeg h
  rcases mem_collapseGo h1 with rfl | ⟨h2, hWs⟩
  · decide
  rcases mem_collapseGo h2 with rfl | ⟨h3, hUnd⟩
  · decide
  rcases mem_replaceHash h3 with rfl | rfl | ⟨h4, hHash⟩
  · decide
  · decide
  rcases mem_replaceAmp h4 with rfl | rfl | rfl | ⟨h5, hAmp⟩
  · decide
  · decide
  · decide
  obtain ⟨h6, hTick⟩ := mem_removeBackticks h5
  rcases mem_replaceBrackets h6 with rfl | rfl | ⟨h7, hBr⟩
  · exact absurd hWs (by decide)
  · decide
  rcases mem_replaceForbidden h7 with rfl | ⟨_, hForb⟩
  · exact absurd hUnd (by decide)
  · simp only [segByteOk, isSpaceUnd, isWs] at *
    simp_all

theorem mem_cleanPathSegment {b : Nat} {s : List Nat} (h : b ∈ cleanPathSegment s) :
    segByteOk b = true :=
  mem_preClean_segByteOk (List.take_subset _ _ h)

theorem segByteOk_not_forbidden {b : Nat} (h : segByteOk b = true) :
    isForbidden b = false := by
  simp only [segByteOk, Bool.and_eq_true, Bool.not_eq_true'] at h
  exact h.1.1.1.1.1

theorem cleanPathSegment_slashFree (s : List Nat) :
    slashFree (cleanPathSegment s) = true := by
  apply List.all_eq_true.2
  intro b hb
  have h := segByteOk_not_forbidden (mem_cleanPathSegment hb)
  simp only [isForbidden] at h
  simp only [bne_iff_ne, ne_eq]
  intro rfl47
  subst rfl47
  simp at h

/-! ## Space runs, heads and tails of the cleaned pipeline output -/

theorem noTwoSpaces_iff : ∀ l : List Nat,
    noTwoSpaces l = true ↔ l.Chain' (fun a b => ¬(a = 32 ∧ b = 32))
  | [] => by simp [noTwoSpaces]
  | [a] => by simp [noTwoSpaces]
  | a :: b :: t => by
    rw [noTwoSpaces, Bool.and_eq_true, List.chain'_cons, noTwoSpaces_iff (b :: t)]
    constructor
    · rintro ⟨h1, h2⟩
      refine ⟨?_, h2⟩
      have := by simpa using h1
      tauto
    · rintro ⟨h1, h2⟩
      refine ⟨?_, h2⟩
      have h3 : ¬(a = 32 ∧ b = 32) := h1
      simp only [Bool.not_eq_true', Bool.and_eq_false_iff, beq_eq_false_iff_ne, ne_eq]
      tauto

theorem noTwoSpaces_reverse {l : List Nat} (h : noTwoSpaces l = true) :
    noTwoSpaces l.reverse = true := by
  rw [noTwoSpaces_iff] at h ⊢
  rw [List.chain'_reverse]
  exact h.imp (fun a b hab => fun ⟨hx, hy⟩ => hab ⟨hy, hx⟩)

theorem noTwoSpaces_dropWhile {p : Nat → Bool} {l : List Nat}
    (h : noTwoSpaces l = true) : noTwoSpaces (l.dropWhile p) = true := by
  rw [noTwoSpaces_iff] at h ⊢
  exact h.suffix (List.dropWhile_suffix p)

theorem noTwoSpaces_cons {a : Nat} {t : List Nat} (h1 : noTwoSpaces t = true)
    (h2 : a ≠ 32 ∨ headNot (fun b => b == 32) t = true) :
    noTwoSpaces (a :: t) = true := by
  cases t with
  | nil => simp [noTwoSpaces]
  | cons c t' =>
    rw [noTwoSpaces, Bool.and_eq_true]
    refine ⟨?_, h1⟩
    rcases h2 with h2 | h2
    · simp [h2]
    · simp only [headNot, Bool.not_eq_true'] at h2
      simp [h2]

/-- The whitespace-collapsing pass leaves no two adjacent spaces, and when
it starts inside a run its output does not start with a space. -/
theorem collapseGo_ws_shape : ∀ (prev : Bool) (s : List Nat),
    noTwoSpaces (collapseGo isWs prev s) = true ∧
      (prev = true → headNot (fun b => b == 32) (collapseGo isWs prev s) = true)
  | _, [] => by simp [collapseGo, noTwoSpaces, headNot]
  | prev, b :: rest => by
    by_cases hp : isWs b
    · cases prev with
      | true =>
        have ih := collapseGo_ws_shape true rest
        simpa [collapseGo, hp] using ih
      | false =>
        have ih := collapseGo_ws_shape true rest
        have hhead := ih.2 rfl
        simp only [collapseGo, hp, if_true, if_false, Bool.false_eq_true]
        refine ⟨noTwoSpaces_cons ih.1 (Or.inr hhead), ?_⟩
        intro hfalse
        cases hfalse
    · have ih := collapseGo_ws_shape false rest
      have hne : b ≠ 32 := by
        intro hb
        subst hb
        exact hp (by decide)
      simp only [collapseGo, hp, if_false]
      refine ⟨noTwoSpaces_cons ih.1 (Or.inl hne), ?_⟩
      intro _
      simp [headNot, hne]

theorem headNot_dropWhile (p : Nat → Bool) : ∀ l : List Nat,
    headNot p (l.dropWhile p) = true
  | [] => by simp [headNot]
  | a :: t => by
    by_cases hp : p a
    · rw [List.dropWhile_cons_of_pos hp]
      exact headNot_dropWhile p t
    · rw [List.dropWhile_cons_of_neg hp]
      simp [headNot, hp]

theorem headNot_of_lead {p : Nat → Bool} {A B : List Nat} (h : A <+: B)
    (hB : headNot p B = true) : headNot p A = true := by
  cases A with
  | nil => simp [headNot]
  | cons a t =>
    obtain ⟨rest, hrest⟩ := h
    subst hrest
    simpa [headNot] using hB

/-- The trailing trim yields a prefix of its input. -/
theorem trimTail_lead (q : Nat → Bool) (Z : List Nat) :
    ((Z.reverse.dropWhile q).reverse) <+: Z := by
  have h := List.dropWhile_suffix (l := Z.reverse) q
  have h2 : (Z.reverse.dropWhile q).reverse <+: Z.reverse.reverse :=
    List.reverse_prefix.2 h
  simpa using h2

theorem trimSeg_prefix_dropWhile (s : List Nat) :
    trimSeg s <+: s.dropWhile isDotSpace := by
  unfold trimSeg
  exact trimTail_lead _ _

/-- Establishment of the fixed-point shape: the pipeline before truncation
always outputs a benign, space-collapsed, trimmed byte string. -/
theorem segFixed_preClean (s : List Nat) : segFixed (preClean s) = true := by
  unfold segFixed
  simp only [Bool.and_eq_true]
  refine ⟨⟨⟨?_, ?_⟩, ?_⟩, ?_⟩
  · exact List.all_eq_true.2 (fun b hb => mem_preClean_segByteOk hb)
  · show noTwoSpaces (preClean s) = true
    unfold preClean trimSeg
    apply noTwoSpaces_reverse
    apply noTwoSpaces_dropWhile
    apply noTwoSpaces_reverse
    apply noTwoSpaces_dropWhile
    exact (collapseGo_ws_shape false _).1
  · show headNot isDotSpace (preClean s) = true
    unfold preClean
    exact headNot_of_lead (trimSeg_prefix_dropWhile _) (headNot_dropWhile _ _)
  · show headNot isTrailTrim (preClean s).reverse = true
    unfold preClean trimSeg
    rw [List.reverse_reverse]
    exact headNot_dropWhile _ _

/-! ## Each pipeline stage is the identity on fixed-shape strings -/

theorem noTwoSpaces_tail {a : Nat} {t : List Nat}
    (h : noTwoSpaces (a :: t) = true) : noTwoSpaces t = true := by
  cases t with
  | nil => rfl
  | cons c t' =>
    rw [noTwoSpaces, Bool.and_eq_true] at h
    exact h.2

theorem replaceForbidden_id {s : List Nat}
    (h : ∀ b ∈ s, isForbidden b = false) : replaceForbidden s = s := by
  unfold replaceForbidden
  induction s with
  | nil => rfl
  | cons a t ih =>
    have ha := h a (List.mem_cons_self _ _)
    have ht := ih (fun b hb => h b (List.mem_cons_of_mem _ hb))
    simp [ha, ht]

theorem replaceBrackets_id {s : List Nat}
    (h : ∀ b ∈ s, isBracketByte b = false) : replaceBrackets s = s := by
  unfold replaceBrackets
  induction s with
  | nil => rfl
  | cons a t ih =>
    have ha := h a (List.mem_cons_self _ _)
    have ht := ih (fun b hb => h b (List.mem_cons_of_mem _ hb))
    simp [ha, ht]

theorem removeBackticks_id {s : List Nat}
    (h : ∀ b ∈ s, b ≠ 96) : removeBackticks s = s := by
  unfold removeBackticks
  apply List.filter_eq_self.2
  intro b hb
  simpa using h b hb

theorem replaceAmp_id {s : List Nat}
    (h : ∀ b ∈ s, b ≠ 38) : replaceAmp s = s := by
  unfold replaceAmp
  induction s with
  | nil => rfl
  | cons a t ih =>
    have ha := h a (List.mem_cons_self _ _)
    have ht := ih (fun b hb => h b (List.mem_cons_of_mem _ hb))
    rw [List.flatMap_cons, if_neg (by simp [ha]), List.singleton_append, ht]

theorem replaceHash_id {s : List Nat}
    (h : ∀ b ∈ s, b ≠ 35) : replaceHash s = s := by
  unfold replaceHash
  induction s with
  | nil => rfl
  | cons a t ih =>
    have ha := h a (List.mem_cons_self _ _)
    have ht := ih (fun b hb => h b (List.mem_cons_of_mem _ hb))
    rw [List.flatMap_cons, if_neg (by simp [ha]), List.singleton_append, ht]

theorem collapseGo_id {p : Nat → Bool} : ∀ {s : List Nat},
    (∀ b ∈ s, p b = false) → ∀ prev, collapseGo p prev s = s
  | [], _, _ => rfl
  | a :: t, h, prev => by
    have ha := h a (List.mem_cons_self _ _)
    have ht := collapseGo_id (fun b hb => h b (List.mem_cons_of_mem _ hb)) false
    simp [collapseGo, ha, ht]

/-- The whitespace-collapsing pass is the identity on strings whose only
whitespace bytes are isolated spaces. -/
theorem collapseGo_ws_id : ∀ (s : List Nat),
    (∀ b ∈ s, isWs b = true → b = 32) → noTwoSpaces s = true →
      ∀ prev, (prev = true → headNot (fun b => b == 32) s = true) →
        collapseGo isWs prev s = s
  | [], _, _, _, _ => rfl
  | a :: t, hws, h2, prev, hprev => by
    have h2t : noTwoSpaces t = true := noTwoSpaces_tail h2
    by_cases hp : isWs a
    · have ha : a = 32 := hws a (List.mem_cons_self _ _) hp
      subst ha
      have hprevF : prev = false := by
        cases prev with
        | false => rfl
        | true =>
          have := hprev rfl
          simp [headNot] at this
      subst hprevF
      have hhead : headNot (fun b => b == 32) t = true := by
        cases t with
        | nil => rfl
        | cons c t' =>
          rw [noTwoSpaces, Bool.and_eq_true] at h2
          have h1 := h2.1
          simp only [headNot]
          simp only [Bool.not_eq_true', Bool.and_eq_false_iff] at h1 ⊢
          rcases h1 with h | h
          · simp at h
          · exact h
      have ht := collapseGo_ws_id t (fun b hb => hws b (List.mem_cons_of_mem _ hb))
        h2t true (fun _ => hhead)
      simp [collapseGo, hp, ht]
    · have ht := collapseGo_ws_id t (fun b hb => hws b (List.mem_cons_of_mem _ hb))
        h2t false (by intro h; cases h)
      simp [collapseGo, hp, ht]

theorem dropWhile_id_of_headNot {p : Nat → Bool} {s : List Nat}
    (h : headNot p s = true) : s.dropWhile p = s := by
  cases s with
  | nil => rfl
  | cons a t =>
    simp only [headNot, Bool.not_eq_true'] at h
    exact List.dropWhile_cons_of_neg (by simp [h])

theorem trimSeg_id {s : List Nat} (h1 : headNot isDotSpace s = true)
    (h2 : headNot isTrailTrim s.reverse = true) : trimSeg s = s := by
  unfold trimSeg
  rw [dropWhile_id_of_headNot h1, dropWhile_id_of_headNot h2,
    List.reverse_reverse]

/-- Any string of the fixed shape is a fixed point of the pipeline before
truncation. -/
theorem preClean_fixpoint {s : List Nat} (h : segFixed s = true) :
    preClean s = s := by
  unfold segFixed at h
  simp only [Bool.and_eq_true] at h
  obtain ⟨⟨⟨hall, h2⟩, hhead⟩, htail⟩ := h
  have hok : ∀ b ∈ s, segByteOk b = true := List.all_eq_true.1 hall
  have hpart : ∀ b ∈ s, isForbidden b = false ∧ isBracketByte b = false ∧
      b ≠ 96 ∧ b ≠ 38 ∧ b ≠ 35 ∧ b ≠ 95 := by
    intro b hb
    have hx := hok b hb
    simp only [segByteOk, Bool.and_eq_true, Bool.not_eq_true', bne_iff_ne,
      ne_eq] at hx
    tauto
  unfold preClean
  rw [replaceForbidden_id (fun b hb => (hpart b hb).1)]
  rw [replaceBrackets_id (fun b hb => (hpart b hb).2.1)]
  rw [removeBackticks_id (fun b hb => (hpart b hb).2.2.1)]
  rw [replaceAmp_id (fun b hb => (hpart b hb).2.2.2.1)]
  rw [replaceHash_id (fun b hb => (hpart b hb).2.2.2.2.1)]
  rw [show collapseRuns isSpaceUnd s = s from collapseGo_id ?_ false]
  · rw [show collapseRuns isWs s = s from
      collapseGo_ws_id s ?_ h2 false (by intro h; cases h)]
    · exact trimSeg_id hhead htail
    · intro b hb hws
      have hnf : isForbidden b = false := (hpart b hb).1
      simp only [isWs, Bool.or_eq_true, beq_iff_eq] at hws
      simp only [isForbidden, Bool.or_eq_false_iff, beq_eq_false_iff_ne,
        ne_eq, decide_eq_false_iff_not] at hnf
      omega
  · intro b hb
    have hnf : isForbidden b = false := (hpart b hb).1
    have h95 : b ≠ 95 := (hpart b hb).2.2.2.2.2
    simp only [isForbidden, Bool.or_eq_false_iff, beq_eq_false_iff_ne,
      ne_eq, decide_eq_false_iff_not] at hnf
    simp only [isSpaceUnd, Bool.or_eq_false_iff, beq_eq_false_iff_ne, ne_eq]
    omega

/-- The untruncated pipeline is idempotent. -/
theorem preClean_idem (s : List Nat) : preClean (preClean s) = preClean s :=
  preClean_fixpoint (segFixed_preClean s)

/-! ## Structure of cleanPath: joining, splitting and slash trimming -/

/-- Segment lists produced by cleaning: non-empty and slash-free. -/
def goodSegs (L : List (List Nat)) : Prop :=
  ∀ l ∈ L, l ≠ [] ∧ slashFree l = true

theorem trimSlashes_cons47 (s : List Nat) :
    trimSlashes (47 :: s) = trimSlashes s := by
  unfold trimSlashes
  rw [List.dropWhile_cons_of_pos (by decide)]

/-- The leading empty strings contributed by the make allocation in
cleanPath only add leading slashes, which the final trim removes. -/
theorem trimSlashes_replicate (n : Nat) (L : List (List Nat)) :
    trimSlashes (joinSlash (List.replicate n [] ++ L)) =
      trimSlashes (joinSlash L) := by
  induction n with
  | zero => rfl
  | succ m ih =>
    rw [List.replicate_succ, List.cons_append]
    cases h : List.replicate m [] ++ L with
    | nil =>
      have hL : L = [] := (List.append_eq_nil.1 h).2
      subst hL
      rfl
    | cons g gs =>
      rw [show joinSlash ([] :: g :: gs) = 47 :: joinSlash (g :: gs) from rfl]
      rw [trimSlashes_cons47, ← h, ih]

theorem joinSlash_ne_nil {x : List Nat} {xs : List (List Nat)}
    (hx : x ≠ []) : joinSlash (x :: xs) ≠ [] := by
  cases xs with
  | nil => exact hx
  | cons y ys =>
    rw [show joinSlash (x :: y :: ys) = x ++ 47 :: joinSlash (y :: ys) from rfl]
    cases x with
    | nil => exact absurd rfl hx
    | cons b t => simp

theorem headNot_append_left {p : Nat → Bool} {A B : List Nat} (h : A ≠ []) :
    headNot p (A ++ B) = headNot p A := by
  cases A with
  | nil => exact absurd rfl h
  | cons a t => rfl

theorem headNot47_of_slashFree {l : List Nat} (h : slashFree l = true) :
    headNot (fun b => b == 47) l = true := by
  cases l with
  | nil => rfl
  | cons b t =>
    have := List.all_eq_true.1 h b (List.mem_cons_self _ _)
    simpa [headNot] using this

theorem slashFree_reverse {l : List Nat} (h : slashFree l = true) :
    slashFree l.reverse = true := by
  apply List.all_eq_true.2
  intro b hb
  exact List.all_eq_true.1 h b (List.mem_reverse.1 hb)

theorem headNot47_joinSlash : ∀ {L : List (List Nat)}, goodSegs L →
    headNot (fun b => b == 47) (joinSlash L) = true
  | [], _ => rfl
  | [x], h => headNot47_of_slashFree (h x (List.mem_cons_self _ _)).2
  | x :: y :: ys, h => by
    rw [show joinSlash (x :: y :: ys) = x ++ 47 :: joinSlash (y :: ys) from rfl]
    have hx := h x (List.mem_cons_self _ _)
    rw [headNot_append_left hx.1]
    exact headNot47_of_slashFree hx.2

theorem headNot47_joinSlash_reverse : ∀ {L : List (List Nat)}, goodSegs L →
    headNot (fun b => b == 47) (joinSlash L).reverse = true
  | [], _ => rfl
  | [x], h =>
    headNot47_of_slashFree (slashFree_reverse (h x (List.mem_cons_self _ _)).2)
  | x :: y :: ys, h => by
    rw [show joinSlash (x :: y :: ys) = x ++ 47 :: joinSlash (y :: ys) from rfl]
    have hy : y ≠ [] := (h y (List.mem_cons_of_mem _ (List.mem_cons_self _ _))).1
    have hj : joinSlash (y :: ys) ≠ [] := joinSlash_ne_nil hy
    rw [List.reverse_append, List.reverse_cons, List.append_assoc]
    rw [headNot_append_left (by simpa using hj)]
    exact headNot47_joinSlash_reverse (fun l hl => h l (List.mem_cons_of_mem _ hl))

theorem trimSlashes_eq_self {s : List Nat}
    (h1 : headNot (fun b => b == 47) s = true)
    (h2 : headNot (fun b => b == 47) s.reverse = true) : trimSlashes s = s := by
  unfold trimSlashes
  rw [dropWhile_id_of_headNot h1, dropWhile_id_of_headNot h2,
    List.reverse_reverse]

theorem trimSlashes_joinSlash {L : List (List Nat)} (h : goodSegs L) :
    trimSlashes (joinSlash L) = joinSlash L :=
  trimSlashes_eq_self (headNot47_joinSlash h) (headNot47_joinSlash_reverse h)

theorem splitOnSlash_ne_nil : ∀ s : List Nat, splitOnSlash s ≠ []
  | [] => by simp [splitOnSlash]
  | b :: rest => by
    rw [splitOnSlash]
    cases h : splitOnSlash rest with
    | nil => simp
    | cons g gs =>
      by_cases hb : (b == 47) = true <;> simp [hb]

theorem splitOnSlash_slashFree : ∀ {x : List Nat}, slashFree x = true →
    splitOnSlash x = [x]
  | [], _ => rfl
  | b :: t, h => by
    have hb : (b == 47) = false := by
      have := List.all_eq_true.1 h b (List.mem_cons_self _ _)
      simpa using this
    have ht := splitOnSlash_slashFree
      (List.all_eq_true.2 (fun c hc => List.all_eq_true.1 h c (List.mem_cons_of_mem _ hc)))
    rw [splitOnSlash, ht, hb]
    simp

theorem splitOnSlash_append47 : ∀ {x : List Nat} (t : List Nat),
    slashFree x = true → splitOnSlash (x ++ 47 :: t) = x :: splitOnSlash t
  | [], t, _ => by
    rw [List.nil_append, splitOnSlash]
    cases h : splitOnSlash t with
    | nil => exact absurd h (splitOnSlash_ne_nil t)
    | cons g gs => simp
  | b :: x', t, h => by
    have hb : (b == 47) = false := by
      have := List.all_eq_true.1 h b (List.mem_cons_self _ _)
      simpa using this
    have hx' : slashFree x' = true :=
      List.all_eq_true.2 (fun c hc => List.all_eq_true.1 h c (List.mem_cons_of_mem _ hc))
    rw [List.cons_append, splitOnSlash, splitOnSlash_append47 t hx', hb]
    simp

theorem splitOnSlash_joinSlash : ∀ {L : List (List Nat)}, L ≠ [] →
    (∀ l ∈ L, slashFree l = true) → splitOnSlash (joinSlash L) = L
  | [], h, _ => absurd rfl h
  | [x], _, h => splitOnSlash_slashFree (h x (List.mem_cons_self _ _))
  | x :: y :: ys, _, h => by
    rw [show joinSlash (x :: y :: ys) = x ++ 47 :: joinSlash (y :: ys) from rfl]
    rw [splitOnSlash_append47 _ (h x (List.mem_cons_self _ _))]
    rw [splitOnSlash_joinSlash (by simp)
      (fun l hl => h l (List.mem_cons_of_mem _ hl))]

/-- The survivors of cleaning: cleaned segments that remain non-empty. -/
def survivors (s : List Nat) : List (List Nat) :=
  ((splitOnSlash s).map cleanPathSegment).filter (fun seg => !seg.isEmpty)

theorem goodSegs_survivors (s : List Nat) : goodSegs (survivors s) := by
  intro l hl
  obtain ⟨hmem, hne⟩ := List.mem_filter.1 hl
  obtain ⟨orig, _, rfl⟩ := List.mem_map.1 hmem
  refine ⟨?_, cleanPathSegment_slashFree orig⟩
  intro hnil
  rw [hnil] at hne
  simp at hne

/-- cleanPath computes the slash-join of the surviving cleaned segments:
the leading empty strings of the make allocation are absorbed by the final
trim, which then has nothing else to remove. -/
theorem cleanPath_eq_joinSlash (s : List Nat) :
    cleanPath s = joinSlash (survivors s) := by
  unfold cleanPath
  rw [trimSlashes_replicate]
  exact trimSlashes_joinSlash (goodSegs_survivors s)

theorem preClean_headNot_dot (s : List Nat) :
    headNot isDotSpace (preClean s) = true := by
  have h := segFixed_preClean s
  unfold segFixed at h
  simp only [Bool.and_eq_true] at h
  exact h.1.2

theorem preClean_headNot_trail (s : List Nat) :
    headNot isTrailTrim (preClean s).reverse = true := by
  have h := segFixed_preClean s
  unfold segFixed at h
  simp only [Bool.and_eq_true] at h
  exact h.2

/-- Follows the spec's words for cleanPath: split the input on slash, run
the segment cleaner on each piece, discard pieces that become empty,
rejoin the surviving pieces with slash, and strip any leading or trailing
slash from the result. -/
def cleanPathSpec (s : List Nat) : List Nat :=
  trimSlashes (joinSlash
    (((splitOnSlash s).map cleanPathSegment).filter (fun seg => !seg.isEmpty)))

/-- C7: cleanPath coincides with the spec-described composition, its
output never starts or ends with a slash, and unless empty it splits into
non-empty segments only. -/
theorem cleanPath_spec_refinement (s : List Nat) :
    cleanPath s = cleanPathSpec s ∧
      headNot (fun b => b == 47) (cleanPath s) = true ∧
      headNot (fun b => b == 47) (cleanPath s).reverse = true ∧
      ((cleanPath s).isEmpty ||
        (splitOnSlash (cleanPath s)).all (fun seg => !seg.isEmpty)) = true := by
  have hgood := goodSegs_survivors s
  have hmain := cleanPath_eq_joinSlash s
  refine ⟨?_, ?_, ?_, ?_⟩
  · rw [hmain]
    unfold cleanPathSpec
    exact (trimSlashes_joinSlash hgood).symm
  · rw [hmain]
    exact headNot47_joinSlash hgood
  · rw [hmain]
    exact headNot47_joinSlash_reverse hgood
  · rw [hmain]
    cases hS : survivors s with
    | nil => simp [joinSlash]
    | cons x xs =>
      rw [hS] at hgood
      rw [splitOnSlash_joinSlash (by simp) (fun l hl => (hgood l hl).2)]
      rw [Bool.or_eq_true]
      right
      apply List.all_eq_true.2
      intro e he
      have hne := (hgood e he).1
      cases e with
      | nil => exact absurd rfl hne
      | cons b t => simp

/-- A 256-byte input whose cleaned form is 256 bytes long and has a dot in
position 254: the trim runs before the truncation, so the truncated output
ends with a dot. -/
def truncDotInput : List Nat := List.replicate 254 97 ++ [46, 98]

/-- C1 counterexample: the cleaned segment of truncDotInput ends with a
dot (byte 46), which lies in the trailing-trim class, because the 255-byte
truncation runs after the trim and cuts the protecting final byte off. -/
theorem cleanSegment_trunc_ends_with_dot :
    (cleanPathSegment truncDotInput).getLast? = some 46 ∧
      isTrailTrim 46 = true := by
  constructor
  · rfl
  · decide

/-- C1 amended: a cleaned segment never starts with a dot or space; and
whenever the pre-truncation cleaned form fits in 255 bytes (so the final
truncation does nothing) it also never ends with a dash, dot or space. -/
theorem cleanSegment_trim_amended (s : List Nat) :
    headNot isDotSpace (cleanPathSegment s) = true ∧
      ((preClean s).length ≤ 255 →
        headNot isTrailTrim (cleanPathSegment s).reverse = true) := by
  constructor
  · exact headNot_of_lead (List.take_prefix _ _) (preClean_headNot_dot s)
  · intro hlen
    rw [show cleanPathSegment s = preClean s from List.take_of_length_le hlen]
    exact preClean_headNot_trail s

/-- Witness for the amended C1 at a concrete small input. -/
theorem cleanSegment_trim_amended_inst :
    headNot isDotSpace (cleanPathSegment (bytes "ok")) = true ∧
      headNot isTrailTrim (cleanPathSegment (bytes "ok")).reverse = true :=
  ⟨(cleanSegment_trim_amended (bytes "ok")).1,
    (cleanSegment_trim_amended (bytes "ok")).2 (by decide)⟩

/-- A 256-byte input whose cleaned form ends in a space after truncation:
the underscore in position 254 becomes a space, the trim sees the final
letter and removes nothing, and the truncation then exposes the space. -/
def truncSpaceInput : List Nat := List.replicate 254 97 ++ [95, 98]

/-- C3 counterexample: cleanPath is not idempotent. On truncSpaceInput the
first pass yields 254 letters followed by a space (truncation exposes the
space), and the second pass trims that space away. -/
theorem cleanPath_not_idempotent :
    cleanPath truncSpaceInput = List.replicate 254 97 ++ [32] ∧
      cleanPath (cleanPath truncSpaceInput) = List.replicate 254 97 ∧
      (List.replicate 254 97 ++ [32] == List.replicate 254 97) = false := by
  refine ⟨rfl, rfl, by decide⟩

/-- C3 amended: cleanPath is idempotent on every input none of whose
segments overflows the 255-byte truncation (in particular whenever no
segment cleans to more than 255 bytes, re-running cleanPath is a no-op). -/
theorem cleanPath_idem_of_no_truncation (p : List Nat)
    (H : ((splitOnSlash p).all
      (fun seg => decide ((preClean seg).length ≤ 255))) = true) :
    cleanPath (cleanPath p) = cleanPath p := by
  have hsurv : ∀ e ∈ survivors p,
      cleanPathSegment e = e ∧ e ≠ [] ∧ slashFree e = true := by
    intro e he
    obtain ⟨hmem, hne⟩ := List.mem_filter.1 he
    obtain ⟨orig, horig, rfl⟩ := List.mem_map.1 hmem
    have hlen : (preClean orig).length ≤ 255 := by
      have := List.all_eq_true.1 H orig horig
      simpa using this
    have hE : cleanPathSegment orig = preClean orig :=
      List.take_of_length_le hlen
    refine ⟨?_, ?_, cleanPathSegment_slashFree orig⟩
    · rw [hE]
      show (preClean (preClean orig)).take 255 = preClean orig
      rw [preClean_idem orig]
      exact List.take_of_length_le hlen
    · intro hnil
      rw [hnil] at hne
      simp at hne
  rw [cleanPath_eq_joinSlash p]
  cases hS : survivors p with
  | nil =>
    show cleanPath (joinSlash []) = joinSlash []
    rfl
  | cons x xs =>
    rw [hS] at hsurv
    rw [cleanPath_eq_joinSlash (joinSlash (x :: xs))]
    have hsplit : splitOnSlash (joinSlash (x :: xs)) = x :: xs :=
      splitOnSlash_joinSlash (by simp) (fun l hl => (hsurv l hl).2.2)
    unfold survivors
    rw [hsplit]
    rw [List.map_congr_left (fun e he => (hsurv e he).1)]
    rw [show List.map (fun e : List Nat => e) (x :: xs) = x :: xs from
      List.map_id _]
    rw [List.filter_eq_self.2 ?_]
    intro e he
    have hne := (hsurv e he).2.1
    cases e with
    | nil => exact absurd rfl hne
    | cons b t => simp

/-- Witness for the amended C3 at a concrete small input. -/
theorem cleanPath_idem_of_no_truncation_inst :
    cleanPath (cleanPath (bytes "a/b")) = cleanPath (bytes "a/b") :=
  cleanPath_idem_of_no_truncation (bytes "a/b") (by decide)

/-- C4: cleanPathSegment output is at most 255 bytes and contains no
forbidden byte (neither one of the ten listed characters nor an ASCII
control code, all of which the isForbidden class comprises). -/
theorem cleanSegment_length_forbidden (s : List Nat) :
    (cleanPathSegment s).length ≤ 255 ∧
      (cleanPathSegment s).all (fun b => !isForbidden b) = true := by
  constructor
  · exact List.length_take_le _ _
  · apply List.all_eq_true.2
    intro b hb
    simp only [Bool.not_eq_true']
    exact segByteOk_not_forbidden (mem_cleanPathSegment hb)

/-! ## The Replace scan: fuel adequacy and span decomposition -/

theorem findClose_length {o c : Char} : ∀ {d : Nat} {s ct rest : List Char},
    findClose o c d s = some (ct, rest) → ct.length + rest.length + 1 = s.length
  | _, [], _, _, h => by simp [findClose] at h
  | d, x :: xs, ct, rest, h => by
    simp only [findClose] at h
    set d' := if x = o then d + 1 else if x = c then d - 1 else d with hd'
    by_cases h0 : d' = 0
    · rw [if_pos h0] at h
      simp only [Option.some.injEq, Prod.mk.injEq] at h
      obtain ⟨rfl, rfl⟩ := h
      simp
    · rw [if_neg h0] at h
      cases hfc : findClose o c d' xs with
      | none => rw [hfc] at h; exact absurd h (by simp)
      | some pr =>
        obtain ⟨ct', rest'⟩ := pr
        rw [hfc] at h
        simp only [Option.some.injEq, Prod.mk.injEq] at h
        obtain ⟨h1, h2⟩ := h
        subst h1
        subst h2
        have ih := findClose_length hfc
        simp only [List.length_cons]
        omega

theorem replaceGoF_irrel (act : Char → Option Char) (m : List Char → Bool)
    (repl : List Char) : ∀ (f g : Nat) (s : List Char),
      s.length < f → s.length < g →
        replaceGoF act m repl f s = replaceGoF act m repl g s
  | 0, _, _, hf, _ => absurd hf (Nat.not_lt_zero _)
  | _ + 1, 0, _, _, hg => absurd hg (Nat.not_lt_zero _)
  | _ + 1, _ + 1, [], _, _ => rfl
  | f + 1, g + 1, x :: xs, hf, hg => by
    simp only [List.length_cons] at hf hg
    cases hact : act x with
    | none =>
      simp only [replaceGoF, hact]
      rw [replaceGoF_irrel act m repl f g xs (by omega) (by omega)]
    | some cb =>
      cases hfc : findClose x cb 1 xs with
      | none => simp only [replaceGoF, hact, hfc]
      | some pr =>
        obtain ⟨content, rest⟩ := pr
        have hlen := findClose_length hfc
        simp only [replaceGoF, hact, hfc]
        rw [replaceGoF_irrel act m repl f g rest (by omega) (by omega)]

/-- Runes for which the active-bracket lookup fails are copied verbatim
and the scan continues behind them. -/
theorem replaceGoF_inactive_lead (act : Char → Option Char)
    (m : List Char → Bool) (repl : List Char) : ∀ (pre s : List Char) (f : Nat),
      (∀ a ∈ pre, act a = none) → pre.length + s.length < f →
        replaceGoF act m repl f (pre ++ s) =
          pre ++ replaceGoF act m repl (s.length + 1) s
  | [], s, f, _, hf => by
    simpa using replaceGoF_irrel act m repl f (s.length + 1) s (by simpa using hf) (by omega)
  | a :: pre', s, f, h, hf => by
    cases f with
    | zero => exact absurd hf (Nat.not_lt_zero _)
    | succ f' =>
      have ha := h a (List.mem_cons_self _ _)
      simp only [List.cons_append, replaceGoF, ha, List.append_eq]
      rw [replaceGoF_inactive_lead act m repl pre' s f'
        (fun b hb => h b (List.mem_cons_of_mem _ hb))
        (by simp only [List.length_cons, List.length_append] at hf ⊢; omega)]

theorem replaceGoF_all_inactive (act : Char → Option Char)
    (m : List Char → Bool) (repl : List Char) (hact : ∀ a, act a = none) :
    ∀ (f : Nat) (s : List Char), s.length < f → replaceGoF act m repl f s = s
  | 0, _, hf => absurd hf (Nat.not_lt_zero _)
  | _ + 1, [], _ => rfl
  | f + 1, x :: xs, hf => by
    simp only [replaceGoF, hact x]
    rw [replaceGoF_all_inactive act m repl hact f xs
      (by simp only [List.length_cons] at hf; omega)]

/-- C5: a configuration without any of the four opening bracket characters
yields an inert filter: Replace returns its input unchanged for every text
and every replacement. -/
theorem replace_inert_of_no_open_brackets (cfg text repl : List Char)
    (h : cfg.all (fun c => !isKnownOpenBracket c) = true) :
    Replace (NewBracketReplacer cfg) text repl = text := by
  have hact : ∀ a, actOf (NewBracketReplacer cfg) a = none := by
    intro a
    unfold actOf
    rw [if_neg]
    intro hcon
    have hmem : a ∈ (NewBracketReplacer cfg).active := List.elem_iff.1 hcon
    have hfil := List.mem_filter.1 hmem
    have := List.all_eq_true.1 h a hfil.1
    rw [hfil.2] at this
    exact absurd this (by decide)
  exact replaceGoF_all_inactive _ _ _ hact _ _ (by omega)

/-- Witness for C5: a bracket-free configuration leaves bracketed text
untouched. -/
theorem replace_inert_inst :
    Replace (NewBracketReplacer ("foo,bar".toList)) ("a(b)c".toList)
      ("XY".toList) = "a(b)c".toList :=
  replace_inert_of_no_open_brackets _ _ _ (by decide)

/-- The depth counter of the closing-bracket scan, checked against zero
after every rune: true when it never reaches zero before the input ends. -/
def neverBalances (o c : Char) (d : Nat) : List Char → Bool
  | [] => true
  | x :: xs =>
    if (if x = o then d + 1 else if x = c then d - 1 else d) = 0 then false
    else neverBalances o c (if x = o then d + 1 else if x = c then d - 1 else d) xs

theorem findClose_none_iff {o c : Char} : ∀ {d : Nat} {s : List Char},
    findClose o c d s = none ↔ neverBalances o c d s = true
  | _, [] => by simp [findClose, neverBalances]
  | d, x :: xs => by
    simp only [findClose, neverBalances]
    set d' := if x = o then d + 1 else if x = c then d - 1 else d with hd'
    by_cases h0 : d' = 0
    · rw [if_pos h0, if_pos h0]
      simp
    · rw [if_neg h0, if_neg h0]
      cases hfc : findClose o c d' xs with
      | none =>
        simp only []
        rw [← findClose_none_iff]
        simp [hfc]
      | some pr =>
        obtain ⟨ct, rest⟩ := pr
        constructor
        · intro h; exact absurd h (by simp)
        · intro h
          have := (findClose_none_iff (d := d') (s := xs)).2 h
          rw [hfc] at this
          exact absurd this (by simp)

/-- C6: when an active opening bracket is met whose depth counter never
returns to zero before the end of input, the whole remainder from the
opening bracket on is emitted verbatim and nothing behind it is processed
(runes before the bracket that are not active opening brackets are copied
verbatim as usual). -/
theorem replace_unbalanced_verbatim (cfg repl pre : List Char) (x cb : Char)
    (xs : List Char)
    (hpre : ∀ a ∈ pre, actOf (NewBracketReplacer cfg) a = none)
    (hx : actOf (NewBracketReplacer cfg) x = some cb)
    (hnb : neverBalances x cb 1 xs = true) :
    Replace (NewBracketReplacer cfg) (pre ++ x :: xs) repl = pre ++ x :: xs := by
  unfold Replace
  rw [replaceGoF_inactive_lead _ _ _ pre (x :: xs) _ hpre
    (by simp [List.length_append])]
  have hfc : findClose x cb 1 xs = none := findClose_none_iff.2 hnb
  simp [replaceGoF, hx, hfc]

/-- Witness for C6: the scan stops at the unbalanced round bracket even
though a well-formed active square span follows it. -/
theorem replace_unbalanced_verbatim_inst :
    Replace (NewBracketReplacer ("([x])".toList))
      ("ab".toList ++ '(' :: "cd[x]".toList) ("ZZ".toList) =
      "ab".toList ++ '(' :: "cd[x]".toList :=
  replace_unbalanced_verbatim _ _ _ '(' ')' _ (by decide) (by decide) (by decide)

/-- C10: a balanced span whose interior the matcher accepts is replaced by
the replacement emitted verbatim exactly once, and the scan resumes
directly behind the span on the original input: the replacement itself is
never re-scanned, whatever active brackets or matching content it holds. -/
theorem replace_span_no_rescan (cfg repl pre content rest : List Char)
    (o cb : Char)
    (hpre : ∀ a ∈ pre, actOf (NewBracketReplacer cfg) a = none)
    (ho : actOf (NewBracketReplacer cfg) o = some cb)
    (hfc : findClose o cb 1 (content ++ cb :: rest) = some (content, rest))
    (hm : matcherAccepts (NewBracketReplacer cfg).pats content = true) :
    Replace (NewBracketReplacer cfg) (pre ++ o :: (content ++ cb :: rest)) repl =
      pre ++ (repl ++ Replace (NewBracketReplacer cfg) rest repl) := by
  unfold Replace
  rw [replaceGoF_inactive_lead _ _ _ pre (o :: (content ++ cb :: rest)) _ hpre
    (by simp [List.length_append])]
  simp only [replaceGoF, ho, hfc, hm, if_true]
  congr 1
  congr 1
  apply replaceGoF_irrel
  · simp only [List.length_cons, List.length_append]
    omega
  · omega

/-- Witness for C10: the replacement contains an active bracket with
matching content, yet survives verbatim; scanning resumes on the rest. -/
theorem replace_span_no_rescan_inst :
    Replace (NewBracketReplacer ("(x)".toList))
      ("a".toList ++ '(' :: ("x".toList ++ ')' :: "b(x)c".toList))
      ("(x)".toList) =
      "a".toList ++ ("(x)".toList ++
        Replace (NewBracketReplacer ("(x)".toList)) ("b(x)c".toList)
          ("(x)".toList)) :=
  replace_span_no_rescan _ _ _ _ _ '(' ')' (by decide) (by decide) (by decide)
    (by decide)

/-- C8: the closing-bracket scan counts depth only on the same opening
rune and its matching closing rune. First conjunct: replacing any rune
other than the two counted ones by any other non-counted rune leaves the
scan's structure unchanged, so foreign bracket types are opaque content.
Second conjunct: the concrete example, where the unbalanced foreign square
bracket inside the round span is ignored and the curly span survives. -/
theorem findClose_cross_type :
    (∀ (o c : Char) (d : Nat) (s : List Char) (f : Char → Char),
      f o = o → f c = c → (∀ a, f a = o → a = o) → (∀ a, f a = c → a = c) →
      findClose o c d (s.map f) =
        Option.map (fun pr => (pr.1.map f, pr.2.map f)) (findClose o c d s)) ∧
    Replace (NewBracketReplacer ("([({limited,digital})])".toList))
      ("Feelgood (limited edition [digital) {fuzzy}".toList) [] =
      "Feelgood  {fuzzy}".toList := by
  constructor
  · intro o c d s f
    induction s generalizing d with
    | nil => intro _ _ _ _; rfl
    | cons x xs ih =>
      intro h1 h2 h3 h4
      have hcond : (if f x = o then d + 1 else if f x = c then d - 1 else d) =
          (if x = o then d + 1 else if x = c then d - 1 else d) := by
        by_cases hxo : x = o
        · rw [if_pos (by rw [hxo, h1]), if_pos hxo]
        · rw [if_neg (fun hc => hxo (h3 x hc)), if_neg hxo]
          by_cases hxc : x = c
          · rw [if_pos (by rw [hxc, h2]), if_pos hxc]
          · rw [if_neg (fun hc => hxc (h4 x hc)), if_neg hxc]
      simp only [List.map_cons, findClose, hcond]
      by_cases h0 : (if x = o then d + 1 else if x = c then d - 1 else d) = 0
      · rw [if_pos h0, if_pos h0]
        rfl
      · rw [if_neg h0, if_neg h0]
        rw [ih _ h1 h2 h3 h4]
        cases findClose o c (if x = o then d + 1 else if x = c then d - 1 else d) xs with
        | none => rfl
        | some pr => obtain ⟨ct, rest⟩ := pr; rfl
  · decide

/-- Witness for the universally quantified conjunct of C8: the foreign
square bracket may even be rewritten into an angle bracket without
changing the round-bracket scan. -/
theorem findClose_cross_type_inst :
    findClose '(' ')' 1
        (("x[y)z".toList).map (fun a => if a = '[' then '<' else a)) =
      Option.map
        (fun pr => (pr.1.map (fun a => if a = '[' then '<' else a),
          pr.2.map (fun a => if a = '[' then '<' else a)))
        (findClose '(' ')' 1 ("x[y)z".toList)) :=
  findClose_cross_type.1 '(' ')' 1 ("x[y)z".toList)
    (fun a => if a = '[' then '<' else a) rfl rfl
    (fun a ha => by
      by_cases h : a = '['
      · subst h
        exact absurd ha (by decide)
      · simpa [h] using ha)
    (fun a ha => by
      by_cases h : a = '['
      · subst h
        exact absurd ha (by decide)
      · simpa [h] using ha)

/-! ## Declarative semantics of the compiled content matcher -/

/-- Declarative full-match relation of a compiled pattern against a rune
string: the empty pattern matches the empty string, a literal matches its
rune up to case folding, and a star matches any run of non-newline runes. -/
inductive Matches : List Tok → List Char → Prop where
  | nil : Matches [] []
  | lit {c x : Char} {ps : List Tok} {xs : List Char} :
      charMatches c x = true → Matches ps xs → Matches (Tok.lit c :: ps) (x :: xs)
  | star_skip {ps : List Tok} {s : List Char} :
      Matches ps s → Matches (Tok.star :: ps) s
  | star_cons {ps : List Tok} {x : Char} {xs : List Char} :
      x ≠ '\n' → Matches (Tok.star :: ps) xs → Matches (Tok.star :: ps) (x :: xs)

theorem matchFullF_sound : ∀ (f : Nat) (pat : List Tok) (s : List Char),
    matchFullF f pat s = true → Matches pat s
  | 0, _, _, h => absurd h (by simp [matchFullF])
  | f + 1, [], s, h => by
    have hs : s = [] := by
      cases s with
      | nil => rfl
      | cons a t => exact absurd h (by simp [matchFullF])
    subst hs
    exact Matches.nil
  | f + 1, Tok.star :: ps, s, h => by
    cases s with
    | nil =>
      simp only [matchFullF, Bool.or_false] at h
      exact Matches.star_skip (matchFullF_sound f ps [] h)
    | cons x xs =>
      simp only [matchFullF, Bool.or_eq_true, Bool.and_eq_true] at h
      rcases h with h | ⟨hne, h⟩
      · exact Matches.star_skip (matchFullF_sound f ps (x :: xs) h)
      · exact Matches.star_cons (by simpa using hne)
          (matchFullF_sound f (Tok.star :: ps) xs h)
  | f + 1, Tok.lit c :: ps, [], h => absurd h (by simp [matchFullF])
  | f + 1, Tok.lit c :: ps, x :: xs, h => by
    rw [matchFullF, Bool.and_eq_true] at h
    exact Matches.lit h.1 (matchFullF_sound f ps xs h.2)

theorem matchFullF_complete {pat : List Tok} {s : List Char}
    (hM : Matches pat s) : ∀ (f : Nat), pat.length + s.length < f →
      matchFullF f pat s = true := by
  induction hM with
  | nil =>
    intro f hf
    cases f with
    | zero => exact absurd hf (by simp)
    | succ f' => simp [matchFullF]
  | lit hc _ ih =>
    intro f hf
    cases f with
    | zero => exact absurd hf (by simp)
    | succ f' =>
      rw [matchFullF, Bool.and_eq_true]
      simp only [List.length_cons] at hf
      exact ⟨hc, ih f' (by omega)⟩
  | star_skip hM ih =>
    rename_i ps s
    intro f hf
    cases f with
    | zero => exact absurd hf (by simp)
    | succ f' =>
      simp only [List.length_cons] at hf
      cases s with
      | nil =>
        simp only [matchFullF, Bool.or_false]
        exact ih f' (by omega)
      | cons x xs =>
        simp only [matchFullF, Bool.or_eq_true]
        exact Or.inl (ih f' (by simp only [List.length_cons] at hf ⊢; omega))
  | star_cons hne _ ih =>
    intro f hf
    cases f with
    | zero => exact absurd hf (by simp)
    | succ f' =>
      simp only [matchFullF, Bool.or_eq_true]
      right
      rw [Bool.and_eq_true]
      simp only [List.length_cons] at hf
      exact ⟨by simpa using hne, ih f' (by simp only [List.length_cons]; omega)⟩

theorem matchFull_iff_Matches (pat : List Tok) (s : List Char) :
    matchFull pat s = true ↔ Matches pat s :=
  ⟨matchFullF_sound _ _ _, fun h => matchFullF_complete h _ (by omega)⟩

theorem prefixMatch_iff (pat : List Tok) (s : List Char) :
    prefixMatch pat s = true ↔
      ∃ mid post, s = mid ++ post ∧ Matches pat mid := by
  unfold prefixMatch
  rw [List.any_eq_true]
  constructor
  · rintro ⟨n, _, hm⟩
    exact ⟨s.take n, s.drop n, (List.take_append_drop n s).symm,
      (matchFull_iff_Matches _ _).1 hm⟩
  · rintro ⟨mid, post, rfl, hM⟩
    refine ⟨mid.length, List.mem_range.2 (by simp only [List.length_append]; omega), ?_⟩
    rw [List.take_left]
    exact (matchFull_iff_Matches _ _).2 hM

theorem subMatch_iff (pat : List Tok) : ∀ (s : List Char),
    subMatch pat s = true ↔
      ∃ pre mid post, s = pre ++ mid ++ post ∧ Matches pat mid
  | [] => by
    show prefixMatch pat [] = true ↔ _
    rw [prefixMatch_iff]
    constructor
    · rintro ⟨mid, post, h, hM⟩
      exact ⟨[], mid, post, by simpa using h, hM⟩
    · rintro ⟨pre, mid, post, h, hM⟩
      obtain ⟨h12, h4⟩ := List.append_eq_nil.1 h.symm
      obtain ⟨h1, h3⟩ := List.append_eq_nil.1 h12
      subst h3
      subst h4
      exact ⟨[], [], rfl, hM⟩
  | x :: xs => by
    show (prefixMatch pat (x :: xs) || subMatch pat xs) = true ↔ _
    rw [Bool.or_eq_true, prefixMatch_iff, subMatch_iff pat xs]
    constructor
    · rintro (⟨mid, post, h, hM⟩ | ⟨pre, mid, post, h, hM⟩)
      · exact ⟨[], mid, post, by simpa using h, hM⟩
      · exact ⟨x :: pre, mid, post, by simp [h], hM⟩
    · rintro ⟨pre, mid, post, h, hM⟩
      cases pre with
      | nil => exact Or.inl ⟨mid, post, by simpa using h, hM⟩
      | cons p pre' =>
        simp only [List.cons_append, List.cons.injEq] at h
        exact Or.inr ⟨pre', mid, post, h.2, hM⟩

/-- C2 amended: the compiled content matcher is unanchored. A content
string is accepted (and the bracketed span around it replaced) exactly
when SOME contiguous substring of it fully matches one of the configured
patterns, case-insensitively - not only when the whole interior does. -/
theorem matcher_substring_iff (cfg content : List Char) :
    matcherAccepts (NewBracketReplacer cfg).pats content = true ↔
      ∃ pat pre mid post, pat ∈ (NewBracketReplacer cfg).pats ∧
        content = pre ++ mid ++ post ∧ Matches (compilePat pat) mid := by
  unfold matcherAccepts
  rw [List.any_eq_true]
  constructor
  · rintro ⟨pat, hpat, hsub⟩
    obtain ⟨pre, mid, post, h, hM⟩ := (subMatch_iff _ content).1 hsub
    exact ⟨pat, pre, mid, post, hpat, h, hM⟩
  · rintro ⟨pat, pre, mid, post, hpat, h, hM⟩
    exact ⟨pat, hpat, (subMatch_iff _ content).2 ⟨pre, mid, post, h, hM⟩⟩

/-- Witness for the amended C2: the interior of the repository's own first
test case is accepted because of a proper substring match. -/
theorem matcher_substring_iff_inst :
    ∃ pat pre mid post,
      pat ∈ (NewBracketReplacer ("(limited)".toList)).pats ∧
        ("limited edition superduper".toList) = pre ++ mid ++ post ∧
        Matches (compilePat pat) mid :=
  (matcher_substring_iff ("(limited)".toList)
    ("limited edition superduper".toList)).1 (by decide)

/-- C2 counterexample: with the single pattern limited, the span around
the interior limited edition superduper is replaced although that whole
interior does not match the pattern - only its first word does. An
anchored (full-interior) matcher as claimed would leave this input
unchanged; the repository's own test expects the replacement. -/
theorem matcher_not_anchored :
    Replace (NewBracketReplacer ("(limited)".toList))
        ("Feelgood (limited edition superduper)".toList) [] =
        "Feelgood ".toList ∧
      (NewBracketReplacer ("(limited)".toList)).pats = ["limited".toList] ∧
      matchFull (compilePat ("limited".toList))
        ("limited edition superduper".toList) = false :=
  ⟨by decide, by decide, by decide⟩

/-! ## Syntactic validity of the assembled regex source (C9) -/

/-- The special runes escaped by regexp.QuoteMeta. -/
def isGoMeta (c : Char) : Bool :=
  c == '\\' || c == '.' || c == '+' || c == '*' || c == '?' || c == '(' ||
    c == ')' || c == '|' || c == '[' || c == ']' || c == '{' || c == '}' ||
    c == '^' || c == '$'

/-- convertPatternToRegex as a string transducer: a star becomes dot-star
and every other rune becomes a fragment matching it literally. In the
source, letters, digits and whitespace are emitted bare and every other
rune goes through regexp.QuoteMeta; since no letter, digit or whitespace
rune is in QuoteMeta's special set, that three-way branch emits exactly
the bare rune for non-special runes and the escaped rune for special
ones, which is this two-way branch. -/
def convertPatternToRegex (p : List Char) : List Char :=
  p.flatMap (fun c =>
    if c = '*' then ['.', '*'] else if isGoMeta c then ['\\', c] else [c])

/-- strings.Join(parts, pipe) used by buildContentRegex. -/
def joinBar : List (List Char) → List Char
  | [] => []
  | [x] => x
  | x :: xs => x ++ '|' :: joinBar xs

/-- The full regex source assembled by buildContentRegex: the
case-insensitive flag group, an opening group parenthesis, the pattern
fragments joined by the alternation bar, and the closing parenthesis. -/
def buildContentRegexSource (pats : List (List Char)) : List Char :=
  "(?i)(".toList ++ (joinBar (pats.map convertPatternToRegex) ++ [')'])

/-- A conservative checker for the fragment of Go regexp syntax the
builder can emit: a sequence of atoms up to the closing group parenthesis,
where an atom is an escaped special rune, the dot, or a plain non-special
rune, alternation bars may separate sequences, and a star may only follow
an atom (never another star and never the start of an alternative). Every
string this accepts is a syntactically valid Go regular expression, so
regexp.MustCompile cannot panic on it. -/
def altsOK : Bool → List Char → Bool
  | _, [] => false
  | prevAtom, c :: rest =>
    if c = ')' then rest.isEmpty
    else if c = '|' then altsOK false rest
    else if c = '*' then prevAtom && altsOK false rest
    else if c = '\\' then
      match rest with
      | [] => false
      | d :: rest' => isGoMeta d && altsOK true rest'
    else if c = '.' then altsOK true rest
    else !isGoMeta c && altsOK true rest

/-- Validity of the whole assembled source: the literal case-insensitive
group prefix followed by one parenthesized alternation. -/
def fullPatternOK : List Char → Bool
  | '(' :: '?' :: 'i' :: ')' :: '(' :: rest => altsOK false rest
  | _ => false

theorem altsOK_dot_star (b : Bool) (X : List Char) :
    altsOK b ('.' :: '*' :: X) = altsOK false X := by
  rw [altsOK.eq_def]
  simp only [reduceIte, reduceCtorEq, Char.reduceEq, if_false, if_true]
  rw [altsOK.eq_def]
  simp

theorem altsOK_backslash (b : Bool) (c : Char) (X : List Char) :
    altsOK b ('\\' :: c :: X) = (isGoMeta c && altsOK true X) := by
  rw [altsOK.eq_def]
  simp

theorem altsOK_bar (b : Bool) (X : List Char) :
    altsOK b ('|' :: X) = altsOK false X := by
  rw [altsOK.eq_def]
  simp

theorem altsOK_convert_append : ∀ (p : List Char) (t : List Char) (b : Bool),
    (∀ g : Bool, altsOK g t = true) → altsOK b (convertPatternToRegex p ++ t) = true
  | [], t, b, h => by
    show altsOK b (convertPatternToRegex [] ++ t) = true
    simpa [convertPatternToRegex] using h b
  | c :: p', t, b, h => by
    have ih := altsOK_convert_append p' t
    show altsOK b ((if c = '*' then ['.', '*']
      else if isGoMeta c then ['\\', c] else [c]) ++ convertPatternToRegex p' ++ t) = true
    by_cases hstar : c = '*'
    · rw [if_pos hstar]
      show altsOK b ('.' :: '*' :: (convertPatternToRegex p' ++ t)) = true
      rw [altsOK_dot_star]
      exact ih false h
    · rw [if_neg hstar]
      by_cases hmeta : isGoMeta c
      · rw [if_pos hmeta]
        show altsOK b ('\\' :: c :: (convertPatternToRegex p' ++ t)) = true
        rw [altsOK_backslash, hmeta, Bool.true_and]
        exact ih true h
      · rw [if_neg hmeta]
        show altsOK b (c :: (convertPatternToRegex p' ++ t)) = true
        have hm' : isGoMeta c = false := by simpa using hmeta
        have hne : ∀ d : Char, isGoMeta d = true → ¬(c = d) := by
          intro d hd hcd
          rw [hcd, hd] at hm'
          exact absurd hm' (by simp)
        rw [altsOK.eq_def]
        dsimp only
        rw [if_neg (hne ')' (by decide)), if_neg (hne '|' (by decide)),
          if_neg (hne '*' (by decide)), if_neg (hne '\\' (by decide)),
          if_neg (hne '.' (by decide))]
        simp only [hm', Bool.not_false, Bool.true_and]
        exact ih true h

theorem altsOK_close_paren : ∀ g : Bool, altsOK g [')'] = true := by
  intro g
  cases g <;> decide

theorem altsOK_body : ∀ (pats : List (List Char)), pats ≠ [] →
    altsOK false (joinBar (pats.map convertPatternToRegex) ++ [')']) = true
  | [], h => absurd rfl h
  | [p], _ => by
    show altsOK false (convertPatternToRegex p ++ [')']) = true
    exact altsOK_convert_append p [')'] false altsOK_close_paren
  | p :: q :: ps, _ => by
    show altsOK false ((convertPatternToRegex p ++
      '|' :: joinBar ((q :: ps).map convertPatternToRegex)) ++ [')']) = true
    rw [List.append_assoc, List.cons_append]
    apply altsOK_convert_append
    intro g
    rw [altsOK_bar]
    exact altsOK_body (q :: ps) (by simp)

theorem patsOf_ne_nil (cfg : List Char) : patsOf cfg ≠ [] := by
  unfold patsOf
  dsimp only
  split
  · simp
  · split
    · simp
    · rename_i hP
      intro hnil
      rw [hnil] at hP
      exact hP rfl

/-- C9: for every configuration string the regex source assembled by
buildContentRegex is accepted by the conservative Go-syntax checker, so
regexp.MustCompile succeeds and NewBracketReplacer always returns a
filter; no configuration can make construction panic. -/
theorem contentRegex_source_valid (cfg : List Char) :
    fullPatternOK (buildContentRegexSource (patsOf cfg)) = true := by
  show altsOK false (joinBar ((patsOf cfg).map convertPatternToRegex) ++ [')']) = true
  exact altsOK_body _ (patsOf_ne_nil cfg)

end Mediasorter
